import Mathlib

/-
Verification of the fracture-network sampling module (fracture.py):
shallow embedding of the orientation model (FisherOrientation), the size
model (PowerLawSize) and the population orchestration (Populatfion) over ℝ,
together with theorems settling the specified properties.

Machine floats are modelled by real numbers; numpy row operations on
(n, 3) arrays are modelled row-wise on a 3-vector record, and arrays of
random draws are modelled as lists of reals supplied explicitly.
-/

noncomputable section

open Real

/-- A 3-vector with real components, one row of a numpy (n, 3) array. -/
structure Vec3 where
  x : ℝ
  y : ℝ
  z : ℝ

/-- Euclidean dot product, numpy `v @ w` on rows. -/
def dot (u v : Vec3) : ℝ := u.x * v.x + u.y * v.y + u.z * v.z

/-- Cross product, numpy `np.cross(u, v)` on rows. -/
def cross (u v : Vec3) : Vec3 :=
  ⟨u.y * v.z - u.z * v.y, u.z * v.x - u.x * v.z, u.x * v.y - u.y * v.x⟩

/-- Euclidean norm, numpy `np.linalg.norm` on a row. -/
def norm3 (v : Vec3) : ℝ := Real.sqrt (v.x ^ 2 + v.y ^ 2 + v.z ^ 2)

/-- Componentwise sum of 3-vectors. -/
def add3 (u v : Vec3) : Vec3 := ⟨u.x + v.x, u.y + v.y, u.z + v.z⟩

/-- Scalar multiple of a 3-vector. -/
def smul3 (c : ℝ) (v : Vec3) : Vec3 := ⟨c * v.x, c * v.y, c * v.z⟩

/-- Fisher orientation distribution parameters (class FisherOrientation).
The dispersion field models the float parameter of the source; the value
`none` models `np.inf`, `some k` a finite dispersion. -/
structure FisherOrientation where
  trend : ℝ
  plunge : ℝ
  dispersion : Option ℝ

/-- One row of the general-dispersion branch of `_sample_standard_fisher`
(source lines 130-141): given finite dispersion `k`, a uniform draw `u`
and the already-scaled angle draw `psi`, the row computed by the source is

  cos_theta = if k = 0 then 1 - 2 u else log (exp k - u (exp k - 1/exp k)) / k
  sin_theta = sqrt (1 - cos_theta ^ 2)
  row       = (sin psi * cos_theta, cos psi * cos_theta, sin_theta). -/
def standardFisherRow (k u psi : ℝ) : Vec3 :=
  let cos_theta : ℝ :=
    if k = 0 then 1 - 2 * u
    else
      let exp_k := Real.exp k
      let exp_ik := 1 / exp_k
      Real.log (exp_k - u * (exp_k - exp_ik)) / k
  let sin_theta := Real.sqrt (1 - cos_theta ^ 2)
  ⟨Real.sin psi * cos_theta, Real.cos psi * cos_theta, sin_theta⟩

/-- The standard-frame sample row as the specification describes it:
`(sin psi * sin theta, cos psi * sin theta, cos theta)` with
`cos theta = log (exp k - u (exp k - exp (-k))) / k` and
`sin theta = sqrt (1 - cos theta ^ 2)`. Stated from the words of the
specification in order to compare it with `standardFisherRow`, the
definition translated from the source. -/
def standardFisherRowSpec (k u psi : ℝ) : Vec3 :=
  let exp_k := Real.exp k
  let exp_ik := 1 / exp_k
  let cos_theta := Real.log (exp_k - u * (exp_k - exp_ik)) / k
  let sin_theta := Real.sqrt (1 - cos_theta ^ 2)
  ⟨Real.sin psi * sin_theta, Real.cos psi * sin_theta, cos_theta⟩

/-- Method `_sample_standard_fisher`: with infinite dispersion (`none`) the
source fills the array with rows (0, 0, 1); otherwise it maps the row
computation over the uniform draws `unif` and angle draws `psi`
(the source draws `psi` as `2 pi * uniform`; here the scaled angles are
passed directly). -/
def FisherOrientation.sample_standard_fisher (fo : FisherOrientation)
    (unif psi : List ℝ) : List Vec3 :=
  match fo.dispersion with
  | none => List.replicate unif.length ⟨0, 0, 1⟩
  | some k => (unif.zip psi).map fun p => standardFisherRow k p.1 p.2

/-- Method `normal_to_axis_angle`, one row: normalize the input, take the
angle to the canonical z axis, and the axis as the normalized cross
product of z with the input, the cross-product norm floored at 1e-200. -/
def normal_to_axis_angle (n : Vec3) : Vec3 × ℝ :=
  let m : Vec3 := ⟨n.x / norm3 n, n.y / norm3 n, n.z / norm3 n⟩
  let cos_angle := dot m ⟨0, 0, 1⟩
  let angle := Real.arccos cos_angle
  let axes := cross ⟨0, 0, 1⟩ m
  let ax_norm := max (norm3 axes) 1e-200
  (⟨axes.x / ax_norm, axes.y / ax_norm, axes.z / ax_norm⟩, angle)

/-- Method `rotate`, one row: the zero-angle fast path returns the input,
otherwise Rodrigues rotation
`v cos + (axis x v) sin + axis (v . axis) (1 - cos)`. -/
def rotate (v : Vec3) (axis : Vec3) (angle : ℝ) : Vec3 :=
  if angle = 0 then v
  else
    let cos_angle := Real.cos angle
    let sin_angle := Real.sin angle
    add3 (add3 (smul3 cos_angle v) (smul3 sin_angle (cross axis v)))
      (smul3 (dot v axis * (1 - cos_angle)) axis)

/-- Method `_mean_normal`: the mean direction unit vector computed from
trend and plunge in degrees (`np.radians x = x * pi / 180`). -/
def FisherOrientation.mean_normal (fo : FisherOrientation) : Vec3 :=
  let trend := fo.trend * π / 180
  let plunge := fo.plunge * π / 180
  ⟨Real.sin trend * Real.cos plunge, Real.cos trend * Real.cos plunge,
    Real.sin plunge⟩

/-- Method `sample_normal`: draw standard-frame rows, then rotate each by
the single axis-angle pair carrying canonical z onto the mean normal. -/
def FisherOrientation.sample_normal (fo : FisherOrientation)
    (unif psi : List ℝ) : List Vec3 :=
  let raw := fo.sample_standard_fisher unif psi
  let mean_norm := fo.mean_normal
  let axis_angle := normal_to_axis_angle mean_norm
  raw.map fun v => rotate v axis_angle.1 axis_angle.2

/-- Method `sample_axis_angle`: the axis-angle form of `sample_normal`. -/
def FisherOrientation.sample_axis_angle (fo : FisherOrientation)
    (unif psi : List ℝ) : List (Vec3 × ℝ) :=
  (fo.sample_normal unif psi).map normal_to_axis_angle

/-- Truncated power law size model (class PowerLawSize). The fields
`power`, `diam_range`, `intensity` and `sample_range` are the attrs
fields of the source. The fields `sampleRangeSet` and `sampleIntensity`
model the attributes `_sample_range` and `_sample_intensity`, which the
source creates only inside `set_sample_range` (they do not exist before
the first call; every state considered below arises from a state on which
`set_sample_range` has been called, which overwrites both). -/
structure PowerLawSize where
  power : ℝ
  diam_range : ℝ × ℝ
  intensity : ℝ
  sample_range : ℝ × ℝ
  sampleRangeSet : ℝ × ℝ
  sampleIntensity : ℝ

/-- Method `_cdf`: `(pmin - x ** (-power)) / (pmin - pmax)` with
`pmin = min ** (-power)`, `pmax = max ** (-power)` (real powers). -/
def PowerLawSize.cdf (s : PowerLawSize) (x min max : ℝ) : ℝ :=
  let pmin := min ^ (-s.power)
  let pmax := max ^ (-s.power)
  (pmin - x ^ (-s.power)) / (pmin - pmax)

/-- Method `_ppf`: `(pmin - x * (pmin - pmax)) ** (-1/power)`. -/
def PowerLawSize.ppf (s : PowerLawSize) (x min max : ℝ) : ℝ :=
  let pmin := min ^ (-s.power)
  let pmax := max ^ (-s.power)
  let scaled := pmin - x * (pmin - pmax)
  scaled ^ (-1 / s.power)

/-- Method `range_intensity`:
`intensity * (c ** (-k) - d ** (-k)) / (a ** (-k) - b ** (-k))` where
`(a, b) = diam_range`, `(c, d)` the argument range, `k = power`. -/
def PowerLawSize.range_intensity (s : PowerLawSize) (range : ℝ × ℝ) : ℝ :=
  s.intensity * (range.1 ^ (-s.power) - range.2 ^ (-s.power)) /
    (s.diam_range.1 ^ (-s.power) - s.diam_range.2 ^ (-s.power))

/-- Method `set_sample_range`: stores the given range (defaulting to
`diam_range`) into `_sample_range` and recomputes `_sample_intensity`.
The attrs field `sample_range` is left untouched, as in the source. -/
def PowerLawSize.set_sample_range (s : PowerLawSize)
    (range : Option (ℝ × ℝ)) : PowerLawSize :=
  let sr := range.getD s.diam_range
  { s with sampleRangeSet := sr, sampleIntensity := s.range_intensity sr }

/-- Method `set_range_by_intensity`: replaces the lower bound of the attrs
field `sample_range` by
`(intensity * (a**(-k) - b**(-k)) / self.intensity + d**(-k)) ** (-1/k)`
where `d` is the upper bound of the current `sample_range`. No other
field changes; in particular `_sample_range` and `_sample_intensity`
are left untouched, as in the source. -/
def PowerLawSize.set_range_by_intensity (s : PowerLawSize)
    (intensity : ℝ) : PowerLawSize :=
  let a := s.diam_range.1
  let b := s.diam_range.2
  let d := s.sample_range.2
  let k := s.power
  { s with sample_range :=
      ((intensity * (a ^ (-k) - b ^ (-k)) / s.intensity + d ^ (-k)) ^ (-1 / k),
        d) }

/-- Method `mean_size`: `_sample_intensity * volume`. -/
def PowerLawSize.mean_size (s : PowerLawSize) (volume : ℝ) : ℝ :=
  s.sampleIntensity * volume

/-- The diameter draw of method `sample` given the list of uniform draws:
the quantile function mapped over the uniforms, over the stored range
`_sample_range`. The source line `U = np.random.rand(size=size)` is
modelled as the intended draw of `size` uniforms; see the results for the
signature defect of that line. -/
def PowerLawSize.sample_diams (s : PowerLawSize) (U : List ℝ) : List ℝ :=
  U.map fun u => s.ppf u s.sampleRangeSet.1 s.sampleRangeSet.2

/-- Single fracture sample record (class FractureShape). -/
structure FractureShape where
  r : ℝ
  centre : Vec3
  rotation_axis : Vec3
  rotation_angle : ℝ
  region : String
  aspect : ℝ

/-- One fracture family (class FrFamily). -/
structure FrFamily where
  name : String
  orientation : FisherOrientation
  shape : PowerLawSize

/-- Whole population of fracture families (class Populatfion). -/
structure Populatfion where
  volume : ℝ
  families : List FrFamily

/-- Method `add_family`: appends a family. -/
def Populatfion.add_family (p : Populatfion) (name : String)
    (position : FisherOrientation) (shape : PowerLawSize) : Populatfion :=
  { p with families := p.families ++ [⟨name, position, shape⟩] }

/-- Method `mean_size`: sum of the family mean sizes over the volume. -/
def Populatfion.mean_size (p : Populatfion) : ℝ :=
  (p.families.map fun f => f.shape.mean_size p.volume).sum

/-- Method `set_sample_range` of the population: applies
`set_sample_range` to every family shape; when a cap is given and the
total mean size exceeds it, applies `set_range_by_intensity` to every
family with target `f.shape.mean_size(volume) / total * cap / volume`.
The source line writes `f.mean_size(volume)` with `volume` an unbound
name and `mean_size` not an attribute of FrFamily; it is modelled here by
the reading its docstring intends, `f.shape.mean_size(self.volume)`. -/
def Populatfion.set_sample_range (p : Populatfion) (sample_range : ℝ × ℝ)
    (max_sample_size : Option ℝ) : Populatfion :=
  let p1 : Populatfion :=
    { p with families := p.families.map fun f =>
        { f with shape := f.shape.set_sample_range (some sample_range) } }
  match max_sample_size with
  | none => p1
  | some cap =>
      let total_size := p1.mean_size
      if cap < total_size then
        { p1 with families := p1.families.map fun f =>
            { f with shape := (f.shape.set_range_by_intensity
                (f.shape.mean_size p1.volume / total_size * cap / p1.volume)) } }
      else p1

/-- Randomness consumed by one family inside `Populatfion.sample`: the
uniform draws for the diameters, the two uniform-derived draws for the
orientation sampler, and the centre draws. -/
structure FamilyDraws where
  diamU : List ℝ
  orientU : List ℝ
  orientPsi : List ℝ
  centers : List Vec3

/-- Method `sample` of the population, modelled as a state transformer
returning the population state after the call together with the produced
fracture list: per family, diameters, matching axis-angle pairs and
centres are zipped into FractureShape records with aspect 1 and region
the family name. -/
def Populatfion.sample (p : Populatfion) (rnd : List FamilyDraws) :
    Populatfion × List FractureShape :=
  let fractures := ((p.families.zip rnd).map fun fr =>
    let f := fr.1
    let diams := f.shape.sample_diams fr.2.diamU
    let fr_axis_angle := f.orientation.sample_axis_angle fr.2.orientU fr.2.orientPsi
    let centers := fr.2.centers
    (diams.zip (fr_axis_angle.zip centers)).map fun t =>
      FractureShape.mk t.1 t.2.2 t.2.1.1 t.2.1.2 f.name 1).flatten
  (p, fractures)

/-- Helper: a nonnegative base raised to `-1/k` and then to `-k` gives the
base back (`k` nonzero). -/
lemma rpow_negInv_rpow_neg (X k : ℝ) (hX : 0 ≤ X) (hk : k ≠ 0) :
    (X ^ (-1 / k)) ^ (-k) = X := by
  rw [← Real.rpow_mul hX, show -1 / k * -k = 1 by field_simp, Real.rpow_one]

/-- Helper: a nonnegative base raised to `-k` and then to `-1/k` gives the
base back (`k` nonzero). -/
lemma rpow_neg_rpow_negInv (x k : ℝ) (hx : 0 ≤ x) (hk : k ≠ 0) :
    (x ^ (-k)) ^ (-1 / k) = x := by
  rw [← Real.rpow_mul hx, show -k * (-1 / k) = 1 by field_simp, Real.rpow_one]

/-- Helper: the map `x ^ (-e)` is antitone on positive bases for `0 ≤ e`. -/
lemma rpow_neg_antitone {x y : ℝ} (e : ℝ) (hx : 0 < x) (hxy : x ≤ y)
    (he : 0 ≤ e) : y ^ (-e) ≤ x ^ (-e) := by
  rw [Real.rpow_neg hx.le, Real.rpow_neg (hx.trans_le hxy).le]
  exact inv_anti₀ (Real.rpow_pos_of_pos hx e)
    (Real.rpow_le_rpow hx.le hxy he)

/-- Helper: the map `x ^ (-e)` is strictly antitone on positive bases for
`0 < e`. -/
lemma rpow_neg_strictAnti {x y : ℝ} (e : ℝ) (hx : 0 < x) (hxy : x < y)
    (he : 0 < e) : y ^ (-e) < x ^ (-e) := by
  rw [Real.rpow_neg hx.le, Real.rpow_neg (hx.trans hxy).le]
  exact inv_strictAnti₀ (Real.rpow_pos_of_pos hx e)
    (Real.rpow_lt_rpow hx.le hxy he)

/-- Helper: the map `x ^ (-1/k)` is antitone on positive bases for
`0 ≤ k`. -/
lemma rpow_negInv_antitone {x y : ℝ} (k : ℝ) (hx : 0 < x) (hxy : x ≤ y)
    (hk : 0 ≤ k) : y ^ (-1 / k) ≤ x ^ (-1 / k) := by
  rw [show (-1 / k : ℝ) = -(1 / k) by ring]
  exact rpow_neg_antitone (1 / k) hx hxy (by positivity)

/-- Helper: evaluation of a real power at a negative natural exponent. -/
lemma rpow_neg_natCast (x : ℝ) (hx : 0 ≤ x) (n : ℕ) :
    x ^ (-(n : ℝ)) = (x ^ n)⁻¹ := by
  rw [Real.rpow_neg hx, Real.rpow_natCast]

/-- C1: for finite positive dispersion the standard-frame Fisher sample is
claimed to be `(sin psi * sin theta, cos psi * sin theta, cos theta)` with
third component `cos theta`; the source stacks
`(sin psi * cos theta, cos psi * cos theta, sin theta)` instead. At
dispersion 1, `U = 0`, `psi = 0`, where `cos theta = 1` and
`sin theta = 0`, the source row is `(0, 1, 0)` while the claimed row is
`(0, 0, 1)`, so the two differ (the source contradicts its own
infinite-dispersion branch, which returns rows `(0, 0, 1)`). -/
theorem C1_standard_fisher_row_swapped :
    standardFisherRow 1 0 0 = ⟨0, 1, 0⟩ ∧
    standardFisherRowSpec 1 0 0 = ⟨0, 0, 1⟩ ∧
    standardFisherRow 1 0 0 ≠ standardFisherRowSpec 1 0 0 := by
  have hcos : Real.log (Real.exp 1 - 0 * (Real.exp 1 - 1 / Real.exp 1)) / 1
      = 1 := by
    rw [zero_mul, sub_zero, Real.log_exp, div_one]
  have h1 : standardFisherRow 1 0 0 = ⟨0, 1, 0⟩ := by
    unfold standardFisherRow
    rw [if_neg (by norm_num : (1 : ℝ) ≠ 0), hcos]
    norm_num
  have h2 : standardFisherRowSpec 1 0 0 = ⟨0, 0, 1⟩ := by
    unfold standardFisherRowSpec
    dsimp only
    rw [hcos]
    norm_num
  refine ⟨h1, h2, ?_⟩
  rw [h1, h2]
  simp [Vec3.mk.injEq]

/-- C10: Rodrigues rotation with a unit axis preserves the Euclidean norm
of the rotated vector, for every vector and every angle. -/
theorem C10_rotate_preserves_norm (v a : Vec3) (angle : ℝ)
    (ha : a.x ^ 2 + a.y ^ 2 + a.z ^ 2 = 1) :
    norm3 (rotate v a angle) = norm3 v := by
  by_cases h0 : angle = 0
  · rw [rotate, if_pos h0]
  · have hcs := Real.sin_sq_add_cos_sq angle
    rw [rotate, if_neg h0]
    unfold norm3 add3 smul3 cross dot
    congr 1
    set c := Real.cos angle
    set s := Real.sin angle
    linear_combination
      (s ^ 2 * (v.x ^ 2 + v.y ^ 2 + v.z ^ 2) +
        (a.x * v.x + a.y * v.y + a.z * v.z) ^ 2 * (1 - c) ^ 2) * ha +
      ((v.x ^ 2 + v.y ^ 2 + v.z ^ 2) -
        (a.x * v.x + a.y * v.y + a.z * v.z) ^ 2) * hcs

/-- Witness for C10 at the axis `(0, 0, 1)`, the vector `(1, 2, 3)` and
the angle 1. -/
theorem C10_rotate_preserves_norm_witness :
    ((0 : ℝ) ^ 2 + 0 ^ 2 + 1 ^ 2 = 1) ∧
    norm3 (rotate ⟨1, 2, 3⟩ ⟨0, 0, 1⟩ 1) = norm3 ⟨1, 2, 3⟩ :=
  ⟨by norm_num, C10_rotate_preserves_norm ⟨1, 2, 3⟩ ⟨0, 0, 1⟩ 1 (by norm_num)⟩

/-- C6: the quantile function is the exact inverse of the truncated
power-law distribution function: for positive power, bounds
`0 < min < max` and every `u` in (0, 1), `cdf (ppf u) = u` (exact over the
reals, hence well within the ~1e-9 tolerance of the claim). -/
theorem C6_cdf_ppf_round_trip (s : PowerLawSize) (c d u : ℝ)
    (hk : 0 < s.power) (hc : 0 < c) (hcd : c < d)
    (hu0 : 0 < u) (hu1 : u < 1) :
    s.cdf (s.ppf u c d) c d = u := by
  have hd : 0 < d := hc.trans hcd
  have hmaxpos : 0 < d ^ (-s.power) := Real.rpow_pos_of_pos hd _
  have hlt : d ^ (-s.power) < c ^ (-s.power) :=
    rpow_neg_strictAnti s.power hc hcd hk
  have hscaled :
      0 < c ^ (-s.power) - u * (c ^ (-s.power) - d ^ (-s.power)) := by
    nlinarith
  have hne : c ^ (-s.power) - d ^ (-s.power) ≠ 0 := by
    have := sub_pos.mpr hlt
    exact this.ne'
  unfold PowerLawSize.cdf PowerLawSize.ppf
  dsimp only
  rw [rpow_negInv_rpow_neg _ _ hscaled.le hk.ne']
  field_simp

/-- Concrete PowerLawSize state with power 1, diameter range (1, 2),
intensity 1, both sample ranges (1, 2) and sample intensity 1, used by
witnesses. -/
def plsA : PowerLawSize := ⟨1, (1, 2), 1, (1, 2), (1, 2), 1⟩

/-- Witness for C6 at power 1, range (1, 2) and `u = 1/2`. -/
theorem C6_cdf_ppf_round_trip_witness :
    (0 < plsA.power) ∧ (0 < (1 : ℝ)) ∧ ((1 : ℝ) < 2) ∧
    (0 < (1 / 2 : ℝ)) ∧ ((1 / 2 : ℝ) < 1) ∧
    plsA.cdf (plsA.ppf (1 / 2) 1 2) 1 2 = 1 / 2 :=
  ⟨by norm_num [plsA], by norm_num, by norm_num, by norm_num, by norm_num,
    C6_cdf_ppf_round_trip plsA 1 2 (1 / 2) (by norm_num [plsA]) (by norm_num)
      (by norm_num) (by norm_num) (by norm_num)⟩

/-- Helper: after `set_range_by_intensity I` the range intensity of the
updated `sample_range` field equals `I`, provided the intensity is
nonzero, the power is nonzero, the full-range denominator is nonzero, and
the target is achievable (the rebased power is nonnegative). -/
lemma range_intensity_set_range_by_intensity (s : PowerLawSize) (I : ℝ)
    (hint : s.intensity ≠ 0) (hk : s.power ≠ 0)
    (hden : s.diam_range.1 ^ (-s.power) - s.diam_range.2 ^ (-s.power) ≠ 0)
    (hX : 0 ≤ I * (s.diam_range.1 ^ (-s.power) - s.diam_range.2 ^ (-s.power))
        / s.intensity + s.sample_range.2 ^ (-s.power)) :
    (s.set_range_by_intensity I).range_intensity
      (s.set_range_by_intensity I).sample_range = I := by
  unfold PowerLawSize.set_range_by_intensity PowerLawSize.range_intensity
  dsimp only
  rw [rpow_negInv_rpow_neg _ _ hX hk]
  field_simp
  ring

/-- C7: `set_range_by_intensity I` moves only the lower bound of the
`sample_range` field: afterwards the range intensity of `sample_range`
equals the target `I` exactly, and the upper bound is unchanged. -/
theorem C7_set_range_by_intensity_exact (s : PowerLawSize) (I : ℝ)
    (hint : s.intensity ≠ 0) (hk : s.power ≠ 0)
    (hden : s.diam_range.1 ^ (-s.power) - s.diam_range.2 ^ (-s.power) ≠ 0)
    (hX : 0 ≤ I * (s.diam_range.1 ^ (-s.power) - s.diam_range.2 ^ (-s.power))
        / s.intensity + s.sample_range.2 ^ (-s.power)) :
    (s.set_range_by_intensity I).range_intensity
      (s.set_range_by_intensity I).sample_range = I ∧
    (s.set_range_by_intensity I).sample_range.2 = s.sample_range.2 :=
  ⟨range_intensity_set_range_by_intensity s I hint hk hden hX, rfl⟩

/-- Witness for C7 on `plsA` with target intensity 1/2. -/
theorem C7_set_range_by_intensity_exact_witness :
    (plsA.intensity ≠ 0) ∧ (plsA.power ≠ 0) ∧
    (plsA.diam_range.1 ^ (-plsA.power) - plsA.diam_range.2 ^ (-plsA.power)
      ≠ 0) ∧
    (0 ≤ (1 / 2 : ℝ) *
        (plsA.diam_range.1 ^ (-plsA.power) - plsA.diam_range.2 ^ (-plsA.power))
        / plsA.intensity + plsA.sample_range.2 ^ (-plsA.power)) ∧
    ((plsA.set_range_by_intensity (1 / 2)).range_intensity
        (plsA.set_range_by_intensity (1 / 2)).sample_range = 1 / 2 ∧
      (plsA.set_range_by_intensity (1 / 2)).sample_range.2 =
        plsA.sample_range.2) := by
  have h1 : plsA.intensity ≠ 0 := by norm_num [plsA]
  have h2 : plsA.power ≠ 0 := by norm_num [plsA]
  have h3 : plsA.diam_range.1 ^ (-plsA.power) -
      plsA.diam_range.2 ^ (-plsA.power) ≠ 0 := by
    show (1 : ℝ) ^ (-(1 : ℝ)) - (2 : ℝ) ^ (-(1 : ℝ)) ≠ 0
    rw [Real.one_rpow, Real.rpow_neg_one]
    norm_num
  have h4 : 0 ≤ (1 / 2 : ℝ) *
      (plsA.diam_range.1 ^ (-plsA.power) - plsA.diam_range.2 ^ (-plsA.power))
      / plsA.intensity + plsA.sample_range.2 ^ (-plsA.power) := by
    show 0 ≤ (1 / 2 : ℝ) * ((1 : ℝ) ^ (-(1 : ℝ)) - (2 : ℝ) ^ (-(1 : ℝ))) / 1
        + (2 : ℝ) ^ (-(1 : ℝ))
    rw [Real.one_rpow, Real.rpow_neg_one]
    norm_num
  exact ⟨h1, h2, h3, h4,
    C7_set_range_by_intensity_exact plsA (1 / 2) h1 h2 h3 h4⟩

/-- Helper: for `0 ≤ u ≤ 1`, positive power and a valid range
`0 < c ≤ d`, the quantile value lies inside the range. -/
lemma ppf_mem_range (s : PowerLawSize) (u c d : ℝ) (hk : 0 < s.power)
    (hc : 0 < c) (hcd : c ≤ d) (hu0 : 0 ≤ u) (hu1 : u ≤ 1) :
    c ≤ s.ppf u c d ∧ s.ppf u c d ≤ d := by
  have hd : 0 < d := hc.trans_le hcd
  have hmaxpos : 0 < d ^ (-s.power) := Real.rpow_pos_of_pos hd _
  have hle : d ^ (-s.power) ≤ c ^ (-s.power) :=
    rpow_neg_antitone s.power hc hcd hk.le
  have hs1 : d ^ (-s.power) ≤
      c ^ (-s.power) - u * (c ^ (-s.power) - d ^ (-s.power)) := by nlinarith
  have hs2 : c ^ (-s.power) - u * (c ^ (-s.power) - d ^ (-s.power)) ≤
      c ^ (-s.power) := by nlinarith
  have hspos : 0 < c ^ (-s.power) - u * (c ^ (-s.power) - d ^ (-s.power)) :=
    lt_of_lt_of_le hmaxpos hs1
  unfold PowerLawSize.ppf
  dsimp only
  constructor
  · calc c = (c ^ (-s.power)) ^ (-1 / s.power) :=
        (rpow_neg_rpow_negInv c s.power hc.le hk.ne').symm
    _ ≤ _ := rpow_negInv_antitone s.power hspos hs2 hk.le
  · calc (c ^ (-s.power) - u * (c ^ (-s.power) - d ^ (-s.power)))
          ^ (-1 / s.power)
        ≤ (d ^ (-s.power)) ^ (-1 / s.power) :=
        rpow_negInv_antitone s.power hmaxpos hs1 hk.le
    _ = d := rpow_neg_rpow_negInv d s.power hd.le hk.ne'

/-- C3: the diameter draw of `sample` with a given count: mapping the
quantile function over the `m` uniform draws yields exactly `m`
diameters, each inside the stored sample range. (The size-handling of the
source `sample` itself is defective; see the results entry.) -/
theorem C3_sample_diams_length_range (s : PowerLawSize) (U : List ℝ)
    (hk : 0 < s.power) (hc : 0 < s.sampleRangeSet.1)
    (hcd : s.sampleRangeSet.1 ≤ s.sampleRangeSet.2)
    (hU : ∀ u ∈ U, 0 ≤ u ∧ u ≤ 1) :
    (s.sample_diams U).length = U.length ∧
    ∀ x ∈ s.sample_diams U,
      s.sampleRangeSet.1 ≤ x ∧ x ≤ s.sampleRangeSet.2 := by
  constructor
  · exact List.length_map _ _
  · intro x hx
    rcases List.mem_map.1 hx with ⟨u, hu, rfl⟩
    exact ppf_mem_range s u _ _ hk hc hcd (hU u hu).1 (hU u hu).2

/-- Witness for C3 on `plsA` with a single uniform draw 1/2. -/
theorem C3_sample_diams_length_range_witness :
    (0 < plsA.power) ∧ (0 < plsA.sampleRangeSet.1) ∧
    (plsA.sampleRangeSet.1 ≤ plsA.sampleRangeSet.2) ∧
    (∀ u ∈ [(1 / 2 : ℝ)], 0 ≤ u ∧ u ≤ 1) ∧
    ((plsA.sample_diams [1 / 2]).length = [(1 / 2 : ℝ)].length ∧
      ∀ x ∈ plsA.sample_diams [1 / 2],
        plsA.sampleRangeSet.1 ≤ x ∧ x ≤ plsA.sampleRangeSet.2) := by
  have h1 : 0 < plsA.power := by norm_num [plsA]
  have h2 : 0 < plsA.sampleRangeSet.1 := by norm_num [plsA]
  have h3 : plsA.sampleRangeSet.1 ≤ plsA.sampleRangeSet.2 := by
    norm_num [plsA]
  have h4 : ∀ u ∈ [(1 / 2 : ℝ)], 0 ≤ u ∧ u ≤ 1 := by
    intro u hu
    rw [List.mem_singleton] at hu
    rw [hu]
    norm_num
  exact ⟨h1, h2, h3, h4,
    C3_sample_diams_length_range plsA [1 / 2] h1 h2 h3 h4⟩

/-- Concrete PowerLawSize state with power 2, diameter range (1, 100),
intensity 10, attrs sample range (1, 100); the derived fields hold
placeholder values, overwritten by the first `set_sample_range`. -/
def plsB : PowerLawSize := ⟨2, (1, 100), 10, (1, 100), (0, 0), 0⟩

/-- `plsB` after `set_sample_range((1, 100))`. -/
def plsB1 : PowerLawSize := plsB.set_sample_range (some (1, 100))

/-- `plsB1` after `set_range_by_intensity(2)`. -/
def plsB2 : PowerLawSize := plsB1.set_range_by_intensity 2

/-- Helper: numeric evaluation of `100 ** (-2)`. -/
lemma hundred_rpow_neg_two : (100 : ℝ) ^ (-(2 : ℝ)) = 1 / 10000 := by
  rw [show (-(2 : ℝ)) = -((2 : ℕ) : ℝ) by norm_num,
    rpow_neg_natCast 100 (by norm_num) 2]
  norm_num

/-- Helper: the sample intensity stored by `set_sample_range((1,100))` on
`plsB` is 10. -/
lemma plsB1_sampleIntensity : plsB1.sampleIntensity = 10 := by
  show (10 : ℝ) * ((1 : ℝ) ^ (-(2 : ℝ)) - (100 : ℝ) ^ (-(2 : ℝ))) /
      ((1 : ℝ) ^ (-(2 : ℝ)) - (100 : ℝ) ^ (-(2 : ℝ))) = 10
  rw [Real.one_rpow, hundred_rpow_neg_two]
  norm_num

/-- C2: the claimed invariant fails after `set_range_by_intensity`. On the
state with power 2, diameter range (1, 100), intensity 10, after
`set_sample_range((1, 100))` and then `set_range_by_intensity(2)`, the
stored sample intensity is still 10 (so `mean_size(1) = 10`) while the
range intensity of the current `sample_range` is 2: the source updates
`sample_range` without recomputing `_sample_intensity` (or
`_sample_range`), so `mean_size(volume)` no longer equals
`range_intensity(sample_range) * volume`. -/
theorem C2_intensity_not_recomputed :
    plsB2.mean_size 1 = 10 ∧
    plsB2.range_intensity plsB2.sample_range * 1 = 2 ∧
    plsB2.mean_size 1 ≠ plsB2.range_intensity plsB2.sample_range * 1 := by
  have hm : plsB2.mean_size 1 = 10 := by
    have hsame : plsB2.sampleIntensity = plsB1.sampleIntensity := rfl
    show plsB2.sampleIntensity * 1 = 10
    rw [hsame, plsB1_sampleIntensity]
    norm_num
  have hint : plsB1.intensity ≠ 0 := by
    show (10 : ℝ) ≠ 0
    norm_num
  have hk : plsB1.power ≠ 0 := by
    show (2 : ℝ) ≠ 0
    norm_num
  have hden : plsB1.diam_range.1 ^ (-plsB1.power) -
      plsB1.diam_range.2 ^ (-plsB1.power) ≠ 0 := by
    show (1 : ℝ) ^ (-(2 : ℝ)) - (100 : ℝ) ^ (-(2 : ℝ)) ≠ 0
    rw [Real.one_rpow, hundred_rpow_neg_two]
    norm_num
  have hX : 0 ≤ (2 : ℝ) * (plsB1.diam_range.1 ^ (-plsB1.power) -
      plsB1.diam_range.2 ^ (-plsB1.power)) / plsB1.intensity +
      plsB1.sample_range.2 ^ (-plsB1.power) := by
    show 0 ≤ (2 : ℝ) * ((1 : ℝ) ^ (-(2 : ℝ)) - (100 : ℝ) ^ (-(2 : ℝ))) / 10 +
        (100 : ℝ) ^ (-(2 : ℝ))
    rw [Real.one_rpow, hundred_rpow_neg_two]
    norm_num
  have hr : plsB2.range_intensity plsB2.sample_range = 2 :=
    range_intensity_set_range_by_intensity plsB1 2 hint hk hden hX
  refine ⟨hm, by rw [hr]; norm_num, ?_⟩
  rw [hm, hr]
  norm_num

/-- Concrete population: unit volume, a single family with shape `plsB`. -/
def popB : Populatfion := ⟨1, [⟨"f1", ⟨0, 0, none⟩, plsB⟩]⟩

/-- `popB` after `set_sample_range((1, 100), max_sample_size=2)`. -/
def popB2 : Populatfion := popB.set_sample_range (1, 100) (some 2)

/-- C4: capping has no effect on the population mean size. After
`set_sample_range((1, 100), max_sample_size=2)` on the single-family
population with power 2, diameter range (1, 100), intensity 10 and unit
volume, the unconstrained mean size is 10 > 2, the shrink branch runs
(modelled with the intended per-family intensity argument, since the
source line references an unbound name), yet `mean_size()` afterwards is
still 10, not at most 2: `set_range_by_intensity` never updates the
stored `_sample_intensity` that `mean_size` reads. -/
theorem C4_cap_not_enforced :
    popB2.mean_size = 10 ∧ ¬ popB2.mean_size ≤ 2 := by
  have hmean : popB2.mean_size = 10 := by
    unfold popB2 popB Populatfion.set_sample_range
    simp only [List.map_cons, List.map_nil]
    have hcond : (2 : ℝ) < Populatfion.mean_size
        ⟨1, [⟨"f1", ⟨0, 0, none⟩, plsB.set_sample_range (some (1, 100))⟩]⟩ := by
      show (2 : ℝ) < (plsB.set_sample_range (some (1, 100))).sampleIntensity
          * (1 : ℝ) + 0
      rw [show (plsB.set_sample_range (some (1, 100))).sampleIntensity =
          plsB1.sampleIntensity from rfl, plsB1_sampleIntensity]
      norm_num
    rw [if_pos hcond]
    unfold Populatfion.mean_size
    simp only [List.map_cons, List.map_nil, List.sum_cons, List.sum_nil]
    show plsB1.sampleIntensity * 1 + 0 = 10
    rw [plsB1_sampleIntensity]
    norm_num
  refine ⟨hmean, ?_⟩
  rw [hmean]
  norm_num

/-- C9: `Populatfion.sample` is side-effect-free on the population: the
state after the call (volume, family list, each orientation model and
each size model with its ranges and intensities) is the state before. -/
theorem C9_sample_is_pure (p : Populatfion) (rnd : List FamilyDraws) :
    (p.sample rnd).1 = p := rfl

/-- Helper: rotating canonical z by a nonzero angle about an axis lying in
the horizontal plane. -/
lemma rotate_z_horizontal_axis (ax : Vec3) (angle : ℝ) (haz : ax.z = 0)
    (hang : angle ≠ 0) :
    rotate ⟨0, 0, 1⟩ ax angle =
      ⟨Real.sin angle * ax.y, -(Real.sin angle * ax.x), Real.cos angle⟩ := by
  unfold rotate add3 smul3 cross dot
  rw [if_neg hang]
  dsimp only
  rw [Vec3.mk.injEq]
  refine ⟨?_, ?_, ?_⟩ <;> rw [haz] <;> ring

/-- Helper: the floor on the axis normalization perturbs a horizontal
component by at most the cross-product norm itself, hence far below
1e-10. -/
lemma horizontal_floor_bound (a σ : ℝ) (hσ0 : 0 ≤ σ) (ha : |a| ≤ σ) :
    |σ * (a / max σ (1e-200 : ℝ)) - a| ≤ 1e-10 := by
  by_cases hbig : (1e-200 : ℝ) ≤ σ
  · rw [max_eq_left hbig]
    have hσne : σ ≠ 0 := (lt_of_lt_of_le (by norm_num) hbig).ne'
    rw [show σ * (a / σ) - a = 0 from by field_simp]
    norm_num
  · push_neg at hbig
    rw [max_eq_right hbig.le]
    have hfrac0 : 0 ≤ σ / (1e-200 : ℝ) := by positivity
    have hfrac1 : σ / (1e-200 : ℝ) ≤ 1 := by
      rw [div_le_one (by norm_num)]
      exact hbig.le
    rw [show σ * (a / (1e-200 : ℝ)) - a = a * (σ / (1e-200 : ℝ) - 1) from by
      ring, abs_mul]
    have habs : |σ / (1e-200 : ℝ) - 1| ≤ 1 := by
      rw [abs_le]
      constructor <;> linarith
    have hstep : |a| * |σ / (1e-200 : ℝ) - 1| ≤ σ * 1 :=
      mul_le_mul ha habs (abs_nonneg _) hσ0
    have : (1e-200 : ℝ) ≤ 1e-10 := by norm_num
    nlinarith

/-- Core round trip: rotating canonical z by the axis-angle pair computed
from a unit normal reconstructs the normal: exactly in the vertical
component, and within the 1e-200 normalization floor (hence well within
1e-10) in the horizontal components. -/
lemma rotate_z_axis_angle_round_trip (n : Vec3)
    (h : n.x ^ 2 + n.y ^ 2 + n.z ^ 2 = 1) :
    |(rotate ⟨0, 0, 1⟩ (normal_to_axis_angle n).1
        (normal_to_axis_angle n).2).x - n.x| ≤ 1e-10 ∧
    |(rotate ⟨0, 0, 1⟩ (normal_to_axis_angle n).1
        (normal_to_axis_angle n).2).y - n.y| ≤ 1e-10 ∧
    (rotate ⟨0, 0, 1⟩ (normal_to_axis_angle n).1
        (normal_to_axis_angle n).2).z = n.z := by
  have hnorm : norm3 n = 1 := by
    unfold norm3
    rw [h, Real.sqrt_one]
  have hz1 : n.z ≤ 1 := by nlinarith [sq_nonneg n.x, sq_nonneg n.y]
  have hz2 : -1 ≤ n.z := by nlinarith [sq_nonneg n.x, sq_nonneg n.y]
  have hσ : norm3 (cross ⟨0, 0, 1⟩
      ⟨n.x / norm3 n, n.y / norm3 n, n.z / norm3 n⟩) =
      Real.sqrt (n.x ^ 2 + n.y ^ 2) := by
    unfold cross norm3
    dsimp only
    rw [h, Real.sqrt_one]
    congr 1
    ring
  have hcx : (cross ⟨0, 0, 1⟩
      ⟨n.x / norm3 n, n.y / norm3 n, n.z / norm3 n⟩).x = -n.y := by
    unfold cross
    dsimp only
    rw [hnorm]
    ring
  have hcy : (cross ⟨0, 0, 1⟩
      ⟨n.x / norm3 n, n.y / norm3 n, n.z / norm3 n⟩).y = n.x := by
    unfold cross
    dsimp only
    rw [hnorm]
    ring
  have hcz : (cross ⟨0, 0, 1⟩
      ⟨n.x / norm3 n, n.y / norm3 n, n.z / norm3 n⟩).z = 0 := by
    unfold cross
    dsimp only
    ring
  have hdot : dot ⟨n.x / norm3 n, n.y / norm3 n, n.z / norm3 n⟩
      ⟨0, 0, 1⟩ = n.z := by
    unfold dot
    dsimp only
    rw [hnorm]
    ring
  have hnta : normal_to_axis_angle n =
      (⟨-n.y / max (Real.sqrt (n.x ^ 2 + n.y ^ 2)) 1e-200,
        n.x / max (Real.sqrt (n.x ^ 2 + n.y ^ 2)) 1e-200, 0⟩,
        Real.arccos n.z) := by
    unfold normal_to_axis_angle
    dsimp only
    rw [hσ, hcx, hcy, hcz, hdot, zero_div]
  rw [hnta]
  dsimp only
  by_cases hang0 : Real.arccos n.z = 0
  · have hz : n.z = 1 := le_antisymm hz1 (Real.arccos_eq_zero.mp hang0)
    have hx0 : n.x = 0 := by nlinarith
    have hy0 : n.y = 0 := by nlinarith
    rw [hang0, rotate, if_pos rfl]
    refine ⟨?_, ?_, hz.symm⟩
    · rw [hx0]
      norm_num
    · rw [hy0]
      norm_num
  · rw [rotate_z_horizontal_axis _ _ rfl hang0]
    dsimp only
    rw [Real.cos_arccos hz2 hz1, Real.sin_arccos,
      show (1 : ℝ) - n.z ^ 2 = n.x ^ 2 + n.y ^ 2 from by linarith]
    have hσ0 : 0 ≤ Real.sqrt (n.x ^ 2 + n.y ^ 2) := Real.sqrt_nonneg _
    have hxb : |n.x| ≤ Real.sqrt (n.x ^ 2 + n.y ^ 2) := by
      calc |n.x| = Real.sqrt (n.x ^ 2) := (Real.sqrt_sq_eq_abs n.x).symm
      _ ≤ _ := Real.sqrt_le_sqrt (by nlinarith [sq_nonneg n.y])
    have hyb : |n.y| ≤ Real.sqrt (n.x ^ 2 + n.y ^ 2) := by
      calc |n.y| = Real.sqrt (n.y ^ 2) := (Real.sqrt_sq_eq_abs n.y).symm
      _ ≤ _ := Real.sqrt_le_sqrt (by nlinarith [sq_nonneg n.x])
    refine ⟨?_, ?_, rfl⟩
    · exact horizontal_floor_bound n.x _ hσ0 hxb
    · rw [show -(Real.sqrt (n.x ^ 2 + n.y ^ 2) *
          (-n.y / max (Real.sqrt (n.x ^ 2 + n.y ^ 2)) 1e-200)) - n.y =
          Real.sqrt (n.x ^ 2 + n.y ^ 2) *
          (n.y / max (Real.sqrt (n.x ^ 2 + n.y ^ 2)) 1e-200) - n.y from by
        ring]
      exact horizontal_floor_bound n.y _ hσ0 hyb

/-- C5: for every unit 3-vector, rotating the canonical z axis by the
axis-angle pair returned by `normal_to_axis_angle` reconstructs the
vector within 1e-10 in each component (the vertical component exactly),
including the degenerate cases where the vector is parallel or
antiparallel to z, where the 1e-200 norm floor makes the axis arbitrary
but the angle 0 or pi is correct. -/
theorem C5_axis_angle_rotate_round_trip (n : Vec3)
    (h : n.x ^ 2 + n.y ^ 2 + n.z ^ 2 = 1) :
    |(rotate ⟨0, 0, 1⟩ (normal_to_axis_angle n).1
        (normal_to_axis_angle n).2).x - n.x| ≤ 1e-10 ∧
    |(rotate ⟨0, 0, 1⟩ (normal_to_axis_angle n).1
        (normal_to_axis_angle n).2).y - n.y| ≤ 1e-10 ∧
    (rotate ⟨0, 0, 1⟩ (normal_to_axis_angle n).1
        (normal_to_axis_angle n).2).z = n.z :=
  rotate_z_axis_angle_round_trip n h

/-- Witness for C5 at the unit vector (1, 0, 0). -/
theorem C5_axis_angle_rotate_round_trip_witness :
    ((⟨1, 0, 0⟩ : Vec3).x ^ 2 + (⟨1, 0, 0⟩ : Vec3).y ^ 2 +
        (⟨1, 0, 0⟩ : Vec3).z ^ 2 = 1) ∧
    (|(rotate ⟨0, 0, 1⟩ (normal_to_axis_angle ⟨1, 0, 0⟩).1
        (normal_to_axis_angle ⟨1, 0, 0⟩).2).x - (⟨1, 0, 0⟩ : Vec3).x| ≤ 1e-10 ∧
      |(rotate ⟨0, 0, 1⟩ (normal_to_axis_angle ⟨1, 0, 0⟩).1
        (normal_to_axis_angle ⟨1, 0, 0⟩).2).y - (⟨1, 0, 0⟩ : Vec3).y| ≤ 1e-10 ∧
      (rotate ⟨0, 0, 1⟩ (normal_to_axis_angle ⟨1, 0, 0⟩).1
        (normal_to_axis_angle ⟨1, 0, 0⟩).2).z = (⟨1, 0, 0⟩ : Vec3).z) :=
  ⟨by show (1 : ℝ) ^ 2 + 0 ^ 2 + 0 ^ 2 = 1; norm_num,
    C5_axis_angle_rotate_round_trip ⟨1, 0, 0⟩
      (by show (1 : ℝ) ^ 2 + 0 ^ 2 + 0 ^ 2 = 1; norm_num)⟩

/-- C8: with infinite dispersion (`none`, modelling `np.inf`),
`sample_normal` returns as many vectors as uniform draws, and every
returned vector is the mean-direction unit vector determined by trend and
plunge, within 1e-10 in each horizontal component and exactly in the
vertical one. -/
theorem C8_infinite_dispersion_mean_normal (fo : FisherOrientation)
    (hd : fo.dispersion = none) (unif psi : List ℝ) :
    (fo.sample_normal unif psi).length = unif.length ∧
    ∀ w ∈ fo.sample_normal unif psi,
      |w.x - fo.mean_normal.x| ≤ 1e-10 ∧
      |w.y - fo.mean_normal.y| ≤ 1e-10 ∧
      w.z = fo.mean_normal.z := by
  have hunit : fo.mean_normal.x ^ 2 + fo.mean_normal.y ^ 2 +
      fo.mean_normal.z ^ 2 = 1 := by
    unfold FisherOrientation.mean_normal
    dsimp only
    linear_combination
      (Real.cos (fo.plunge * π / 180)) ^ 2 *
        Real.sin_sq_add_cos_sq (fo.trend * π / 180) +
      Real.sin_sq_add_cos_sq (fo.plunge * π / 180)
  have hrt := rotate_z_axis_angle_round_trip fo.mean_normal hunit
  unfold FisherOrientation.sample_normal FisherOrientation.sample_standard_fisher
  rw [hd]
  dsimp only
  constructor
  · rw [List.length_map, List.length_replicate]
  · intro w hw
    rw [List.mem_map] at hw
    rcases hw with ⟨v, hv, rfl⟩
    rw [List.eq_of_mem_replicate hv]
    exact hrt

/-- Concrete orientation with trend 0, plunge 0 and infinite dispersion. -/
def foInf : FisherOrientation := ⟨0, 0, none⟩

/-- Witness for C8 on `foInf` with one draw. -/
theorem C8_infinite_dispersion_mean_normal_witness :
    foInf.dispersion = none ∧
    ((foInf.sample_normal [0] [0]).length = [(0 : ℝ)].length ∧
      ∀ w ∈ foInf.sample_normal [0] [0],
        |w.x - foInf.mean_normal.x| ≤ 1e-10 ∧
        |w.y - foInf.mean_normal.y| ≤ 1e-10 ∧
        w.z = foInf.mean_normal.z) :=
  ⟨rfl, C8_infinite_dispersion_mean_normal foInf rfl [0] [0]⟩

end
